import Mathlib

/-
Verification of the NexussAIWrapper memory / attention / heartbeat core.

Shallow embedding of the Python sources:
  memory_system.py      : MemoryManager (core / recall / archival tiers)
  attention_mechanism.py: AttentionManager.build_context
  skill_registry.py     : SkillRegistry.execute
  heartbeat_protocol.py : HeartbeatProtocol (_execute_heartbeat, _heartbeat_loop, stop)
  Utils.py, config.py   : estimate_tokens, truncate, constants

Conventions of the embedding:
  * Python ints are Nat / Int (Python `//` on ints with a positive divisor is
    Int.ediv; `estimate_tokens` divides Nats).
  * Python dicts with insertion order are association lists.
  * `collections.deque(maxlen=n)` is a list with capped append (`dequeAppend`).
  * Exceptions are `Except String`; a raising handler is `Except.error msg`.
  * Float `importance` values are only ever compared, never computed with,
    so they are embedded as rationals.
  * Wall-clock strings (`timestamp()`), content hashes and the block `id` /
    `created_at` / `updated_at` / `memory_type` fields are read by none of the
    operations verified here and are omitted from the block structure.
  * The source attribute named `recall` is a reserved word in this
    development's ambient library, so the field is called `recallBuf`.
-/

-- ═══════════════════════════════ config.py ═══════════════════════════════

def CORE_MEMORY_LIMIT : Nat := 2048
def RECALL_MEMORY_LIMIT : Nat := 100
def ARCHIVAL_SEARCH_LIMIT : Nat := 50
def ATTENTION_WINDOW_TOKENS : Nat := 4096
def HEARTBEAT_HISTORY_LIMIT : Nat := 100

-- ═══════════════════════════════ Utils.py ════════════════════════════════

/-- `estimate_tokens(text)`: `len(text) // 4`. -/
def estimate_tokens (text : String) : Nat := text.length / 4

/-- `truncate(text, max_len)`: `text[:max_len-3] + "..." if len(text) > max_len else text`.
(The source only calls this with `max_len = 200 ≥ 3`, where Python slicing and
`List.take` agree.) -/
def truncate (text : String) (max_len : Nat) : String :=
  if max_len < text.length then String.mk (text.data.take (max_len - 3)) ++ "..." else text

-- ═══════════════════ data model (enums_and_dataclasses.py) ═══════════════

/-- An `ollama.Message`: role plus optional content. -/
structure Msg where
  role : String
  content : Option String
deriving DecidableEq, Repr

/-- A `MemoryBlock` (content, importance, access_count, tags; see the header
note on the omitted unobserved fields). -/
structure MemoryBlock where
  content : String
  importance : ℚ
  accessCount : Nat
  tags : List String
deriving DecidableEq, Repr

/-- The three tiers owned by `MemoryManager`: `core` (insertion-ordered dict
keyed by label), `recallBuf` (deque with maxlen), `archival_index` (dict of
blocks; only its values are ever iterated, so keys are dropped). -/
structure MemState where
  core : List (String × MemoryBlock)
  recallBuf : List Msg
  archival : List MemoryBlock
deriving DecidableEq, Repr

/-- Append to a `collections.deque(maxlen=cap)`: once full, the oldest
(leftmost) element is evicted. -/
def dequeAppend (cap : Nat) (l : List α) (a : α) : List α :=
  if l.length < cap then l ++ [a] else l.tail ++ [a]

-- ═══════════════════════════ memory_system.py ════════════════════════════

/-- Total character count of all core blocks. -/
def coreTotal (core : List (String × MemoryBlock)) : Nat :=
  (core.map fun kb => kb.2.content.length).sum

/-- `sum(len(b.content) for k, b in self.core.items() if k != key)`. -/
def otherLen (core : List (String × MemoryBlock)) (key : String) : Nat :=
  ((core.filter fun kb => kb.1 ≠ key).map fun kb => kb.2.content.length).sum

/-- `MemoryManager.update_core_memory(key, content)`: reject (returning
`false`, store untouched) when the other blocks plus the new content would
exceed `CORE_MEMORY_LIMIT`; otherwise update in place or insert a fresh block
(importance 1.0) and return `true`. -/
def update_core_memory (core : List (String × MemoryBlock)) (key content : String) :
    Bool × List (String × MemoryBlock) :=
  if otherLen core key + content.length > CORE_MEMORY_LIMIT then
    (false, core)
  else if core.any fun kb => kb.1 = key then
    (true, core.map fun kb => if kb.1 = key then (kb.1, { kb.2 with content := content }) else kb)
  else
    (true, core ++ [(key, ⟨content, 1, 0, []⟩)])

/-- Run a sequence of `update_core_memory` calls, keeping only the store. -/
def applyWrites (calls : List (String × String)) (core : List (String × MemoryBlock)) :
    List (String × MemoryBlock) :=
  calls.foldl (fun c kc => (update_core_memory c kc.1 kc.2).2) core

/-- Content of the first core block stored under `k`, if any. -/
def coreLookup (core : List (String × MemoryBlock)) (k : String) : Option String :=
  (core.find? fun kb => kb.1 = k).map fun kb => kb.2.content

/-- `MemoryManager.add_to_recall`: `deque.append` with `maxlen = RECALL_MEMORY_LIMIT`. -/
def add_to_recall (buf : List Msg) (m : Msg) : List Msg :=
  dequeAppend RECALL_MEMORY_LIMIT buf m

/-- Python `l[k:]` (used as `msgs[-limit:]`): a negative start counts from the
end, clamped at 0. -/
def pySliceFrom (l : List α) (k : Int) : List α :=
  if k < 0 then l.drop ((l.length : Int) + k).toNat else l.drop k.toNat

/-- `MemoryManager.get_recall_messages(limit)`:
`msgs[-limit:] if limit else msgs` — both `None` and `0` are falsy. -/
def get_recall_messages (buf : List Msg) (limit : Option Int) : List Msg :=
  match limit with
  | none => buf
  | some n => if n = 0 then buf else pySliceFrom buf (-n)

-- ════════════════ theorems: C1, C2, C10 (memory store) ═══════════════════

theorem coreTotal_cons (hd : String × MemoryBlock) (tl : List (String × MemoryBlock)) :
    coreTotal (hd :: tl) = hd.2.content.length + coreTotal tl := by
  simp [coreTotal]

theorem coreTotal_append (l1 l2 : List (String × MemoryBlock)) :
    coreTotal (l1 ++ l2) = coreTotal l1 + coreTotal l2 := by
  simp [coreTotal]

theorem otherLen_cons (hd : String × MemoryBlock) (tl : List (String × MemoryBlock))
    (key : String) :
    otherLen (hd :: tl) key =
      (if hd.1 = key then 0 else hd.2.content.length) + otherLen tl key := by
  unfold otherLen
  rw [List.filter_cons]
  by_cases hk : hd.1 = key <;> simp [hk]

theorem otherLen_of_all_ne (core : List (String × MemoryBlock)) (key : String)
    (h : ∀ kb ∈ core, kb.1 ≠ key) : otherLen core key = coreTotal core := by
  unfold otherLen coreTotal
  rw [List.filter_eq_self.mpr]
  intro kb hkb
  simpa using h kb hkb

theorem map_replace_eq_self (tl : List (String × MemoryBlock)) (key content : String)
    (h : ∀ kb ∈ tl, kb.1 ≠ key) :
    (tl.map fun kb => if kb.1 = key then (kb.1, { kb.2 with content := content }) else kb) =
      tl := by
  induction tl with
  | nil => rfl
  | cons hd tl ih =>
    have hne : hd.1 ≠ key := h hd (by simp)
    simp only [List.map_cons, if_neg hne]
    rw [ih fun kb hkb => h kb (by simp [hkb])]

theorem coreTotal_map_replace (core : List (String × MemoryBlock)) (key content : String)
    (hnd : (core.map Prod.fst).Nodup)
    (hmem : core.any (fun kb => kb.1 = key) = true) :
    coreTotal (core.map fun kb =>
        if kb.1 = key then (kb.1, { kb.2 with content := content }) else kb) =
      otherLen core key + content.length := by
  induction core with
  | nil => simp at hmem
  | cons hd tl ih =>
    simp only [List.map_cons, List.nodup_cons] at hnd
    rw [List.map_cons, otherLen_cons]
    by_cases hk : hd.1 = key
    · have htl : ∀ kb ∈ tl, kb.1 ≠ key := by
        intro kb hkb hcontra
        exact hnd.1 (by rw [hk, ← hcontra]; exact List.mem_map_of_mem _ hkb)
      rw [if_pos hk, if_pos hk, map_replace_eq_self tl key content htl,
        otherLen_of_all_ne tl key htl, coreTotal_cons]
      dsimp only
      omega
    · have hmemtl : tl.any (fun kb => kb.1 = key) = true := by
        simp only [List.any_cons, Bool.or_eq_true, decide_eq_true_eq] at hmem
        rcases hmem with h1 | h2
        · exact absurd h1 hk
        · exact h2
      rw [if_neg hk, if_neg hk, coreTotal_cons, ih hnd.2 hmemtl]
      omega

theorem fst_map_replace (core : List (String × MemoryBlock)) (key content : String) :
    ((core.map fun kb =>
        if kb.1 = key then (kb.1, { kb.2 with content := content }) else kb).map Prod.fst) =
      core.map Prod.fst := by
  induction core with
  | nil => rfl
  | cons hd tl ih =>
    by_cases hk : hd.1 = key <;> simp [hk, ih]

theorem update_core_memory_inv (core : List (String × MemoryBlock)) (key content : String)
    (hnd : (core.map Prod.fst).Nodup) (h : coreTotal core ≤ CORE_MEMORY_LIMIT) :
    coreTotal (update_core_memory core key content).2 ≤ CORE_MEMORY_LIMIT ∧
      ((update_core_memory core key content).2.map Prod.fst).Nodup := by
  unfold update_core_memory
  by_cases hlim : otherLen core key + content.length > CORE_MEMORY_LIMIT
  · simp [hlim, h, hnd]
  · rw [if_neg hlim]
    by_cases hmem : core.any (fun kb => kb.1 = key) = true
    · rw [if_pos hmem]
      constructor
      · rw [coreTotal_map_replace core key content hnd hmem]; omega
      · rw [fst_map_replace]; exact hnd
    · rw [if_neg (by simpa using hmem)]
      have hall : ∀ kb ∈ core, kb.1 ≠ key := by
        intro kb hkb hcontra
        simp only [List.any_eq_true, decide_eq_true_eq] at hmem
        exact hmem ⟨kb, hkb, hcontra⟩
      constructor
      · rw [coreTotal_append]
        have hother := otherLen_of_all_ne core key hall
        have hone : coreTotal [(key, (⟨content, 1, 0, []⟩ : MemoryBlock))] =
            content.length := by simp [coreTotal]
        omega
      · simp only [List.map_append, List.map_cons, List.map_nil]
        rw [List.nodup_append]
        refine ⟨hnd, List.nodup_singleton _, ?_⟩
        intro a ha hb
        simp only [List.mem_singleton] at hb
        subst hb
        simp only [List.mem_map] at ha
        obtain ⟨kb, hkb, hfst⟩ := ha
        exact (hall kb hkb) hfst

theorem applyWrites_inv (calls : List (String × String)) (core : List (String × MemoryBlock))
    (hnd : (core.map Prod.fst).Nodup) (h : coreTotal core ≤ CORE_MEMORY_LIMIT) :
    coreTotal (applyWrites calls core) ≤ CORE_MEMORY_LIMIT := by
  induction calls generalizing core with
  | nil => exact h
  | cons c cs ih =>
    have step := update_core_memory_inv core c.1 c.2 hnd h
    exact ih _ step.2 step.1

theorem coreLookup_map_replace (core : List (String × MemoryBlock)) (key content k2 : String) :
    coreLookup (core.map fun kb =>
        if kb.1 = key then (kb.1, { kb.2 with content := content }) else kb) k2 =
      if k2 = key ∧ (core.any fun kb => kb.1 = key) = true then some content
      else coreLookup core k2 := by
  induction core with
  | nil => simp [coreLookup]
  | cons hd tl ih =>
    unfold coreLookup at ih ⊢
    simp only [List.map_cons]
    by_cases hk : hd.1 = key
    · rw [if_pos hk]
      by_cases hk2 : k2 = key
      · rw [List.find?_cons_of_pos _ (by simpa using hk.trans hk2.symm)]
        rw [if_pos ⟨hk2, by simp [List.any_cons, hk]⟩]
        rfl
      · have hne : ¬(hd.1 = k2) := fun hc => hk2 ((hc ▸ hk : k2 = key))
        rw [List.find?_cons_of_neg _ (by simpa using hne)]
        rw [ih]
        rw [if_neg (fun hc => hk2 hc.1), if_neg (fun hc => hk2 hc.1)]
        rw [List.find?_cons_of_neg _ (by simpa using hne)]
    · rw [if_neg hk]
      by_cases hk2 : hd.1 = k2
      · rw [List.find?_cons_of_pos _ (by simpa using hk2)]
        rw [if_neg (fun hc => hk (by rw [hk2, hc.1]))]
        rw [List.find?_cons_of_pos _ (by simpa using hk2)]
      · rw [List.find?_cons_of_neg _ (by simpa using hk2)]
        rw [ih]
        by_cases hc : k2 = key ∧ (tl.any fun kb => kb.1 = key) = true
        · rw [if_pos hc, if_pos ⟨hc.1, by simp [List.any_cons, hc.2]⟩]
        · rw [if_neg hc, if_neg (by
            rintro ⟨h1, h2⟩
            simp only [List.any_cons, Bool.or_eq_true, decide_eq_true_eq] at h2
            rcases h2 with h2 | h2
            · exact hk h2
            · exact hc ⟨h1, h2⟩)]
          rw [List.find?_cons_of_neg _ (by simpa using hk2)]

theorem coreLookup_append_new (core : List (String × MemoryBlock)) (key : String)
    (b : MemoryBlock) (k2 : String) :
    coreLookup (core ++ [(key, b)]) k2 =
      if coreLookup core k2 = none ∧ k2 = key then some b.content
      else coreLookup core k2 := by
  induction core with
  | nil =>
    by_cases hk : k2 = key
    · simp only [List.nil_append]
      unfold coreLookup
      rw [List.find?_cons_of_pos _ (by simpa using hk.symm)]
      simp [hk, coreLookup]
    · simp only [List.nil_append]
      unfold coreLookup
      rw [List.find?_cons_of_neg _ (by simpa using fun hc : key = k2 => hk hc.symm)]
      simp [hk, coreLookup]
  | cons hd tl ih =>
    by_cases hk2 : hd.1 = k2
    · unfold coreLookup
      simp only [List.cons_append]
      rw [List.find?_cons_of_pos _ (by simpa using hk2),
        List.find?_cons_of_pos _ (by simpa using hk2)]
      simp
    · unfold coreLookup at ih ⊢
      simp only [List.cons_append]
      rw [List.find?_cons_of_neg _ (by simpa using hk2),
        List.find?_cons_of_neg _ (by simpa using hk2)]
      rw [ih]

/-- **C1**: for every sequence of `writeCore` (`update_core_memory`) calls
starting from the empty store, the summed core content length never exceeds
`CORE_MEMORY_LIMIT`; a call whose other blocks plus the new content would
exceed the limit returns `false` and leaves the store unchanged; any other
call returns `true` and upserts: the key now maps to the new content and every
other key is unaffected. -/
theorem writeCore_invariant :
    (∀ calls : List (String × String),
      coreTotal (applyWrites calls []) ≤ CORE_MEMORY_LIMIT) ∧
    (∀ (core : List (String × MemoryBlock)) (key content : String),
      otherLen core key + content.length > CORE_MEMORY_LIMIT →
      update_core_memory core key content = (false, core)) ∧
    (∀ (core : List (String × MemoryBlock)) (key content : String),
      otherLen core key + content.length ≤ CORE_MEMORY_LIMIT →
      (update_core_memory core key content).1 = true ∧
      coreLookup (update_core_memory core key content).2 key = some content ∧
      ∀ k2, k2 ≠ key →
        coreLookup (update_core_memory core key content).2 k2 = coreLookup core k2) := by
  refine ⟨fun calls => applyWrites_inv calls [] (by simp) (by simp [coreTotal]), ?_, ?_⟩
  · intro core key content h
    unfold update_core_memory
    rw [if_pos h]
  · intro core key content h
    have hlim : ¬(otherLen core key + content.length > CORE_MEMORY_LIMIT) := by omega
    unfold update_core_memory
    rw [if_neg hlim]
    by_cases hmem : core.any (fun kb => kb.1 = key) = true
    · rw [if_pos hmem]
      refine ⟨rfl, ?_, ?_⟩
      · rw [coreLookup_map_replace]
        simp [hmem]
      · intro k2 hk2
        rw [coreLookup_map_replace]
        simp [hk2]
    · rw [if_neg (by simpa using hmem)]
      refine ⟨rfl, ?_, ?_⟩
      · rw [coreLookup_append_new]
        have hnone : coreLookup core key = none := by
          unfold coreLookup
          rw [List.find?_eq_none.mpr]
          · rfl
          · intro kb hkb
            simp only [List.any_eq_true, decide_eq_true_eq] at hmem
            simpa using fun hcontra => hmem ⟨kb, hkb, hcontra⟩
        simp [hnone]
      · intro k2 hk2
        rw [coreLookup_append_new]
        simp [hk2]

theorem otherLen_single_ne (k key : String) (b : MemoryBlock) (h : k ≠ key) :
    otherLen [(k, b)] key = b.content.length := by
  simp [otherLen, h]

/-- Witness for C1 at concrete inputs: an oversized write is rejected
unchanged, and a fitting write stores its content. -/
theorem writeCore_invariant_witness :
    update_core_memory [("persona", ⟨String.mk (List.replicate 2049 'a'), 1, 0, []⟩)]
        "task" "b" =
      (false, [("persona", ⟨String.mk (List.replicate 2049 'a'), 1, 0, []⟩)]) ∧
    (update_core_memory [] "persona" "I am Nexuss").1 = true ∧
    coreLookup (update_core_memory [] "persona" "I am Nexuss").2 "persona" =
      some "I am Nexuss" := by
  refine ⟨?_, ?_, ?_⟩
  · refine writeCore_invariant.2.1 _ "task" "b" ?_
    rw [otherLen_single_ne "persona" "task" _ (by decide)]
    have ha : ((⟨String.mk (List.replicate 2049 'a'), 1, 0, []⟩ : MemoryBlock)).content.length
        = 2049 := List.length_replicate 2049 'a'
    rw [ha]
    decide
  · exact (writeCore_invariant.2.2 [] "persona" "I am Nexuss" (by decide)).1
  · exact (writeCore_invariant.2.2 [] "persona" "I am Nexuss" (by decide)).2.1

/-- **C2**: the recall buffer (a deque with `maxlen = RECALL_MEMORY_LIMIT`)
never exceeds its capacity for any insertion sequence; an append to a full
buffer evicts exactly the oldest entry and keeps the rest in order, and an
append to a non-full buffer keeps everything. -/
theorem appendRecall_fifo :
    (∀ (ms : List Msg) (s : List Msg), s.length ≤ RECALL_MEMORY_LIMIT →
      (ms.foldl add_to_recall s).length ≤ RECALL_MEMORY_LIMIT) ∧
    (∀ (s : List Msg) (m : Msg), s.length = RECALL_MEMORY_LIMIT →
      add_to_recall s m = s.drop 1 ++ [m]) ∧
    (∀ (s : List Msg) (m : Msg), s.length < RECALL_MEMORY_LIMIT →
      add_to_recall s m = s ++ [m]) := by
  refine ⟨?_, ?_, ?_⟩
  · intro ms
    induction ms with
    | nil => intro s h; exact h
    | cons m rest ih =>
      intro s h
      simp only [List.foldl_cons]
      apply ih
      unfold add_to_recall dequeAppend
      by_cases hf : s.length < RECALL_MEMORY_LIMIT
      · rw [if_pos hf]
        simp only [List.length_append, List.length_cons, List.length_nil]
        omega
      · rw [if_neg hf]
        simp only [List.length_append, List.length_tail, List.length_cons, List.length_nil]
        unfold RECALL_MEMORY_LIMIT at h hf ⊢
        omega
  · intro s m h
    unfold add_to_recall dequeAppend
    rw [if_neg (by rw [h]; exact Nat.lt_irrefl _), ← List.drop_one]
  · intro s m h
    unfold add_to_recall dequeAppend
    rw [if_pos h]

/-- Witness for C2: appends to an empty, a full and a short buffer. -/
theorem appendRecall_fifo_witness :
    ([Msg.mk "user" (some "hi")].foldl add_to_recall []).length ≤ RECALL_MEMORY_LIMIT ∧
    add_to_recall (List.replicate 100 (Msg.mk "user" (some "x"))) (Msg.mk "user" (some "y")) =
      (List.replicate 100 (Msg.mk "user" (some "x"))).drop 1 ++ [Msg.mk "user" (some "y")] ∧
    add_to_recall [Msg.mk "user" (some "a")] (Msg.mk "user" (some "b")) =
      [Msg.mk "user" (some "a")] ++ [Msg.mk "user" (some "b")] := by
  refine ⟨?_, ?_, ?_⟩
  · exact appendRecall_fifo.1 _ [] (by simp)
  · exact appendRecall_fifo.2.1 _ _ (by simp [RECALL_MEMORY_LIMIT])
  · exact appendRecall_fifo.2.2 _ _ (by simp [RECALL_MEMORY_LIMIT])

/-- **C10**: `get_recall_messages` with `limit = 0` returns the whole buffer
(0 is falsy, treated like the absent limit), and with a positive limit `n`
returns the most recent `min n length` entries, in chronological order (a
suffix of the buffer). -/
theorem getRecallMessages_zero_falsy :
    (∀ buf : List Msg,
      get_recall_messages buf (some 0) = buf ∧
      get_recall_messages buf none = buf) ∧
    (∀ (buf : List Msg) (n : Int), 0 < n →
      get_recall_messages buf (some n) = buf.drop (buf.length - n.toNat) ∧
      (get_recall_messages buf (some n)).length = min n.toNat buf.length) := by
  constructor
  · intro buf
    exact ⟨by simp [get_recall_messages], rfl⟩
  · intro buf n hn
    have hne : ¬(n = 0) := by omega
    have hdef : get_recall_messages buf (some n) =
        buf.drop (buf.length - n.toNat) := by
      simp only [get_recall_messages, pySliceFrom]
      rw [if_neg hne, if_pos (by omega)]
      have harith : ((buf.length : Int) + -n).toNat = buf.length - n.toNat := by omega
      rw [harith]
    refine ⟨hdef, ?_⟩
    rw [hdef, List.length_drop]
    omega

/-- Witness for C10: a three-entry buffer with `limit = 2` yields the last
two entries in order. -/
theorem getRecallMessages_zero_falsy_witness :
    get_recall_messages [Msg.mk "user" (some "a"), Msg.mk "assistant" (some "b"),
        Msg.mk "user" (some "c")] (some 2) =
      [Msg.mk "user" (some "a"), Msg.mk "assistant" (some "b"),
        Msg.mk "user" (some "c")].drop 1 ∧
    (get_recall_messages [Msg.mk "user" (some "a"), Msg.mk "assistant" (some "b"),
        Msg.mk "user" (some "c")] (some 2)).length = min 2 3 := by
  have h := getRecallMessages_zero_falsy.2
    [Msg.mk "user" (some "a"), Msg.mk "assistant" (some "b"), Msg.mk "user" (some "c")]
    2 (by decide)
  exact ⟨h.1, h.2⟩

-- ═══════════ Python string primitives used by search_archival ════════════
-- (embedded over char lists so that all definitions evaluate by kernel
-- reduction; the library String.split / String.toLower use well-founded
-- recursion on byte positions instead)

/-- Python `str.lower()` (ASCII case mapping, which is all the sources use). -/
def strLower (s : String) : String := String.mk (s.data.map Char.toLower)

/-- Python `str.upper()`. -/
def strUpper (s : String) : String := String.mk (s.data.map Char.toUpper)

/-- Python `sep.join(parts)`. -/
def strJoin (sep : String) : List String → String
  | [] => ""
  | [x] => x
  | x :: xs => x ++ sep ++ strJoin sep xs

/-- Does `w` occur at the start of `s`? -/
def charsEqFrom : List Char → List Char → Bool
  | [], _ => true
  | _ :: _, [] => false
  | a :: as, b :: bs => a == b && charsEqFrom as bs

/-- Python `w in s` on strings: substring occurrence. -/
def subOccurs (w : List Char) : List Char → Bool
  | [] => w.isEmpty
  | c :: cs => charsEqFrom w (c :: cs) || subOccurs w cs

/-- Python `w in s` lifted to `String`. -/
def occursInStr (w s : String) : Bool := subOccurs w.data s.data

/-- Python `str.split()` helper: split on whitespace runs, dropping empties;
`acc` holds the current word reversed. -/
def splitWsAux : List Char → List Char → List (List Char)
  | [], acc => if acc.isEmpty then [] else [acc.reverse]
  | c :: cs, acc =>
    if c.isWhitespace then
      if acc.isEmpty then splitWsAux cs [] else acc.reverse :: splitWsAux cs []
    else splitWsAux cs (c :: acc)

/-- Python `str.split()` with no separator argument. -/
def pySplitWhitespace (s : String) : List String :=
  (splitWsAux s.data []).map String.mk

/-- `set(query.lower().split())`: the distinct lowercase query words (a Python
set; only membership and cardinality of matches are ever used). -/
def queryWordsOf (query : String) : List String :=
  (pySplitWhitespace (strLower query)).dedup

/-- `score = sum(1 for w in query_words if w in content_lower)`. -/
def matchScore (query_words : List String) (content_lower : String) : Nat :=
  (query_words.filter fun w => occursInStr w content_lower).length

/-- `block.access_count += 1`. -/
def bumpBlock (b : MemoryBlock) : MemoryBlock :=
  { b with accessCount := b.accessCount + 1 }

/-- The tag guard: `not (tags and not any(t in block.tags for t in tags))`,
i.e. proceed when no tag filter is given or one tag is shared. -/
def tagOk (tags : List String) (b : MemoryBlock) : Bool :=
  tags.isEmpty || tags.any fun t => b.tags.contains t

/-- The descending ranking order of `results.sort(key=lambda x: (x[0],
x[1].importance), reverse=True)`: `x` ranks no lower than `y`. -/
def rankLe (x y : Nat × MemoryBlock) : Prop :=
  y.1 < x.1 ∨ (x.1 = y.1 ∧ y.2.importance ≤ x.2.importance)

instance : DecidableRel rankLe := fun x y =>
  inferInstanceAs (Decidable (y.1 < x.1 ∨ (x.1 = y.1 ∧ y.2.importance ≤ x.2.importance)))

instance : IsTotal (Nat × MemoryBlock) rankLe where
  total := by
    intro a b
    unfold rankLe
    rcases Nat.lt_trichotomy a.1 b.1 with h | h | h
    · exact Or.inr (Or.inl h)
    · rcases le_total a.2.importance b.2.importance with hi | hi
      · exact Or.inr (Or.inr ⟨h.symm, hi⟩)
      · exact Or.inl (Or.inr ⟨h, hi⟩)
    · exact Or.inl (Or.inl h)

instance : IsTrans (Nat × MemoryBlock) rankLe where
  trans := by
    intro a b c hab hbc
    unfold rankLe at *
    rcases hab with h1 | ⟨h1e, h1i⟩ <;> rcases hbc with h2 | ⟨h2e, h2i⟩
    · exact Or.inl (by omega)
    · exact Or.inl (by omega)
    · exact Or.inl (by omega)
    · exact Or.inr ⟨by omega, le_trans h2i h1i⟩

/-- `MemoryManager.search_archival(query, limit, tags)`: score every block by
the number of distinct lowercased query words occurring in its lowercased
content, keep blocks passing the tag guard with score > 0 (bumping their
access counter), sort by `(score, importance)` descending and return the first
`limit`. The second component is the updated archival store (matched blocks
bumped in place). Ties are sorted arbitrarily, as in the source. -/
def search_archival (arch : List MemoryBlock) (query : String) (lim : Nat)
    (tags : List String) : List MemoryBlock × List MemoryBlock :=
  let query_words := queryWordsOf query
  let scored := arch.filterMap fun b =>
    if tagOk tags b then
      if 0 < matchScore query_words (strLower b.content) then
        some (matchScore query_words (strLower b.content), bumpBlock b)
      else none
    else none
  let ranked := List.insertionSort rankLe scored
  ((ranked.take lim).map fun sb => sb.2,
   arch.map fun b =>
     if tagOk tags b && decide (0 < matchScore query_words (strLower b.content))
     then bumpBlock b else b)

-- ═══════════════════════ theorem: C4 (search ranking) ════════════════════

theorem bumpBlock_content (b : MemoryBlock) : (bumpBlock b).content = b.content := rfl

theorem bumpBlock_importance (b : MemoryBlock) : (bumpBlock b).importance = b.importance := rfl

theorem bumpBlock_tags (b : MemoryBlock) : (bumpBlock b).tags = b.tags := rfl

/-- Every scored pair produced by the `filterMap` of `search_archival`
carries its own recomputed score, a positive score, and a passing tag guard. -/
theorem search_scored_mem (arch : List MemoryBlock) (query : String) (tags : List String)
    (p : Nat × MemoryBlock)
    (hp : p ∈ arch.filterMap fun b =>
      if tagOk tags b then
        if 0 < matchScore (queryWordsOf query) (strLower b.content) then
          some (matchScore (queryWordsOf query) (strLower b.content), bumpBlock b)
        else none
      else none) :
    p.1 = matchScore (queryWordsOf query) (strLower p.2.content) ∧
      0 < matchScore (queryWordsOf query) (strLower p.2.content) ∧
      tagOk tags p.2 = true := by
  rw [List.mem_filterMap] at hp
  obtain ⟨a, _, ha⟩ := hp
  by_cases htag : tagOk tags a
  · rw [if_pos htag] at ha
    by_cases hsc : 0 < matchScore (queryWordsOf query) (strLower a.content)
    · rw [if_pos hsc] at ha
      have hpe := Option.some.inj ha
      subst hpe
      exact ⟨rfl, hsc, htag⟩
    · rw [if_neg hsc] at ha
      exact absurd ha (by simp)
  · rw [if_neg htag] at ha
    exact absurd ha (by simp)

/-- **C4**: `search_archival` returns only blocks containing at least one
lowercased query word in their lowercased content that pass the tag filter
(share a tag, unless no filter is given); the result is ordered by match-word
count descending then importance descending, and holds at most `limit`
blocks. -/
theorem searchArchival_ranked (arch : List MemoryBlock) (query : String) (lim : Nat)
    (tags : List String) :
    (∀ b ∈ (search_archival arch query lim tags).1,
        0 < matchScore (queryWordsOf query) (strLower b.content) ∧
        (tags = [] ∨ ∃ t ∈ tags, t ∈ b.tags)) ∧
    List.Pairwise (fun a b =>
        matchScore (queryWordsOf query) (strLower b.content) <
            matchScore (queryWordsOf query) (strLower a.content) ∨
          (matchScore (queryWordsOf query) (strLower a.content) =
              matchScore (queryWordsOf query) (strLower b.content) ∧
            b.importance ≤ a.importance))
      (search_archival arch query lim tags).1 ∧
    (search_archival arch query lim tags).1.length ≤ lim := by
  have hmem_ranked : ∀ p ∈ (List.insertionSort rankLe (arch.filterMap fun b =>
      if tagOk tags b then
        if 0 < matchScore (queryWordsOf query) (strLower b.content) then
          some (matchScore (queryWordsOf query) (strLower b.content), bumpBlock b)
        else none
      else none)).take lim,
      p.1 = matchScore (queryWordsOf query) (strLower p.2.content) ∧
        0 < matchScore (queryWordsOf query) (strLower p.2.content) ∧
        tagOk tags p.2 = true := by
    intro p hp
    have hp2 := (List.take_sublist lim _).mem hp
    rw [List.mem_insertionSort] at hp2
    exact search_scored_mem arch query tags p hp2
  refine ⟨?_, ?_, ?_⟩
  · intro b hb
    simp only [search_archival, List.mem_map] at hb
    obtain ⟨p, hp, hpb⟩ := hb
    have := hmem_ranked p hp
    subst hpb
    refine ⟨this.2.1, ?_⟩
    have htag := this.2.2
    unfold tagOk at htag
    rcases tags with _ | ⟨t0, ts⟩
    · exact Or.inl rfl
    · right
      simp only [List.isEmpty_cons, Bool.false_or, List.any_eq_true] at htag
      obtain ⟨t, ht, htin⟩ := htag
      exact ⟨t, ht, by simpa [List.elem_iff] using htin⟩
  · show List.Pairwise _ ((_ : List (Nat × MemoryBlock)).map _)
    rw [List.pairwise_map]
    have hsorted : List.Pairwise rankLe ((List.insertionSort rankLe
        (arch.filterMap fun b =>
          if tagOk tags b then
            if 0 < matchScore (queryWordsOf query) (strLower b.content) then
              some (matchScore (queryWordsOf query) (strLower b.content), bumpBlock b)
            else none
          else none)).take lim) :=
      List.Pairwise.sublist (List.take_sublist lim _)
        (List.sorted_insertionSort rankLe _)
    refine List.Pairwise.imp_of_mem ?_ hsorted
    intro p q hpmem hqmem hr
    have hpfact := hmem_ranked p hpmem
    have hqfact := hmem_ranked q hqmem
    unfold rankLe at hr
    rw [hpfact.1, hqfact.1] at hr
    exact hr
  · show ((_ : List (Nat × MemoryBlock)).map _).length ≤ lim
    rw [List.length_map, List.length_take]
    exact min_le_left _ _

/-- Witness for C4: a two-block corpus queried with "foo bar"; the returned
matching block (access counter bumped) has a positive score and no tag filter
applies. -/
theorem searchArchival_ranked_witness :
    0 < matchScore (queryWordsOf "foo bar")
        (strLower (⟨"some foo and bar text", 1, 1, []⟩ : MemoryBlock).content) ∧
    (([] : List String) = [] ∨
      ∃ t ∈ ([] : List String), t ∈ (⟨"some foo and bar text", 1, 1, []⟩ : MemoryBlock).tags) :=
  (searchArchival_ranked
    [⟨"some foo and bar text", 1, 0, []⟩, ⟨"nothing relevant", 1, 0, []⟩]
    "foo bar" 5 []).1 ⟨"some foo and bar text", 1, 1, []⟩ (by decide)

-- ═══════════════════════ attention_mechanism.py ══════════════════════════

/-- The `AttentionContext` snapshot rebuilt on every `build_context` call. -/
structure AttentionContext where
  total_tokens : Int
  core_tokens : Nat
  recall_tokens : Int
  system_tokens : Nat
  available_tokens : Int
  focus_topic : Option String
deriving DecidableEq, Repr

/-- `MemoryManager.get_core_memory()`: labeled sections joined by blank lines;
bumps every core block's access counter as a side effect (source line 35). -/
def get_core_memory (core : List (String × MemoryBlock)) :
    String × List (String × MemoryBlock) :=
  (strJoin "\n\n" (core.map fun kb => "[" ++ strUpper kb.1 ++ "]\n" ++ kb.2.content),
   core.map fun kb => (kb.1, bumpBlock kb.2))

/-- `estimate_tokens(msg.content or "")`. -/
def tokOf (m : Msg) : Int := estimate_tokens (m.content.getD "")

def tokSum (l : List Msg) : Int := (l.map tokOf).sum

/-- The recall fill loop of `build_context`: walk the reversed buffer (newest
first), stop at the first entry that would overflow, `insert(0, msg)` keeps
the selection chronological; returns the selection and its token total. -/
def fillRecall : List Msg → Int → Int → List Msg × Int
  | [], _, acc => ([], acc)
  | m :: rest, remaining, acc =>
    if acc + tokOf m > remaining then ([], acc)
    else
      let r := fillRecall rest remaining (acc + tokOf m)
      (r.1 ++ [m], r.2)

/-- `"\n### RELEVANT MEMORIES ###\n" + "\n".join("- " + truncate(b.content, 200))`. -/
def archivalExcerpt (results : List MemoryBlock) : String :=
  "\n### RELEVANT MEMORIES ###\n" ++
    strJoin "\n" (results.map fun b => "- " ++ truncate b.content 200)

/-- `f"{system_prompt}\n\n### CORE MEMORY ###\n{core_content}"`. -/
def fullSystem (core_content system_prompt : String) : String :=
  system_prompt ++ "\n\n### CORE MEMORY ###\n" ++ core_content

/-- `remaining = max_tokens - used_tokens - 500` right after costing the
system prompt and core memory (the fixed 500-token safety margin). -/
def baseRemaining (st : MemState) (max_tokens : Nat) (system_prompt : String) : Int :=
  (max_tokens : Int) -
    ((estimate_tokens system_prompt : Int) +
      (estimate_tokens (get_core_memory st.core).1 : Int)) - 500

/-- `AttentionManager.build_context(system_prompt, focus_query)`: system
message (plus archival excerpt when affordable), recall fill, context
snapshot, and the (mutated) store. -/
def build_context (st : MemState) (max_tokens : Nat) (system_prompt : String)
    (focus_query : Option String) : List Msg × AttentionContext × MemState :=
  let system_tokens := estimate_tokens system_prompt
  let gc := get_core_memory st.core
  let core_tokens := estimate_tokens gc.1
  let full_system := fullSystem gc.1 system_prompt
  let used0 : Int := (system_tokens : Int) + (core_tokens : Int)
  let remaining0 : Int := baseRemaining st max_tokens system_prompt
  let fq := focus_query.getD ""
  let step :=
    if fq = "" then (full_system, used0, remaining0, st.archival)
    else
      let sr := search_archival st.archival fq 5 []
      if sr.1.isEmpty then (full_system, used0, remaining0, sr.2)
      else
        let archival_tokens : Int := (estimate_tokens (archivalExcerpt sr.1) : Int)
        if archival_tokens < Int.ediv remaining0 3 then
          (full_system ++ "\n" ++ archivalExcerpt sr.1, used0 + archival_tokens,
            remaining0 - archival_tokens, sr.2)
        else (full_system, used0, remaining0, sr.2)
  let fr := fillRecall (get_recall_messages st.recallBuf none).reverse step.2.2.1 0
  let used_tokens := step.2.1 + fr.2
  (Msg.mk "system" (some step.1) :: fr.1,
   ⟨used_tokens, core_tokens, fr.2, system_tokens, (max_tokens : Int) - used_tokens,
     focus_query⟩,
   ⟨gc.2, st.recallBuf, step.2.2.2⟩)

-- ══════════════════════ theorems: C3 (budgeting) ═════════════════════════

/-- The archival excerpt is included exactly when there are search results and
the excerpt costs strictly less than `remaining // 3` (floor division). -/
def archIncluded (st : MemState) (max_tokens : Nat) (system_prompt q : String) : Prop :=
  (search_archival st.archival q 5 []).1 ≠ [] ∧
    ((estimate_tokens (archivalExcerpt (search_archival st.archival q 5 []).1) : Int) <
      Int.ediv (baseRemaining st max_tokens system_prompt) 3)

instance (st : MemState) (max_tokens : Nat) (sp q : String) :
    Decidable (archIncluded st max_tokens sp q) := by
  unfold archIncluded
  infer_instance

/-- The budget left for recall after the archival decision. -/
def remainingAfterArch (st : MemState) (max_tokens : Nat) (sp q : String) : Int :=
  if archIncluded st max_tokens sp q then
    baseRemaining st max_tokens sp -
      (estimate_tokens (archivalExcerpt (search_archival st.archival q 5 []).1) : Int)
  else baseRemaining st max_tokens sp

/-- The system-message text `build_context` emits under a focus query. -/
def sysMessageOf (st : MemState) (max_tokens : Nat) (sp q : String) : String :=
  if archIncluded st max_tokens sp q then
    fullSystem (get_core_memory st.core).1 sp ++ "\n" ++
      archivalExcerpt (search_archival st.archival q 5 []).1
  else fullSystem (get_core_memory st.core).1 sp

theorem build_context_focus_msgs (st : MemState) (max_tokens : Nat) (sp q : String)
    (hq : q ≠ "") :
    (build_context st max_tokens sp (some q)).1 =
      Msg.mk "system" (some (sysMessageOf st max_tokens sp q)) ::
        (fillRecall st.recallBuf.reverse (remainingAfterArch st max_tokens sp q) 0).1 := by
  simp only [build_context, Option.getD_some, get_recall_messages]
  rw [if_neg hq]
  by_cases hres : (search_archival st.archival q 5 []).1 = []
  · rw [if_pos (by rw [hres]; rfl)]
    have hni : ¬ archIncluded st max_tokens sp q := fun hc => hc.1 hres
    simp only [sysMessageOf, remainingAfterArch, if_neg hni]
  · rw [if_neg (by simpa using hres)]
    by_cases hlt : (estimate_tokens (archivalExcerpt
          (search_archival st.archival q 5 []).1) : Int) <
        Int.ediv (baseRemaining st max_tokens sp) 3
    · rw [if_pos hlt]
      have hinc : archIncluded st max_tokens sp q := ⟨hres, hlt⟩
      simp only [sysMessageOf, remainingAfterArch, if_pos hinc]
    · rw [if_neg hlt]
      have hni : ¬ archIncluded st max_tokens sp q := fun hc => hlt hc.2
      simp only [sysMessageOf, remainingAfterArch, if_neg hni]

theorem tokSum_cons (m : Msg) (l : List Msg) : tokSum (m :: l) = tokOf m + tokSum l := by
  simp [tokSum]

theorem tokSum_reverse (l : List Msg) : tokSum l.reverse = tokSum l := by
  simp [tokSum, List.sum_reverse]

theorem reverse_take_rev (buf : List Msg) (k : Nat) :
    (buf.reverse.take k).reverse = buf.drop (buf.length - k) := by
  rw [← List.rtake_eq_reverse_take_reverse]
  rfl

theorem fillRecall_spec (rl : List Msg) (rem : Int) :
    ∀ acc : Int, ∃ k, k ≤ rl.length ∧
      (fillRecall rl rem acc).1 = (rl.take k).reverse ∧
      (0 < k → acc + tokSum (rl.take k) ≤ rem) ∧
      (k < rl.length → acc + tokSum (rl.take (k + 1)) > rem) := by
  induction rl with
  | nil =>
    intro acc
    exact ⟨0, Nat.le_refl 0, rfl, fun h => absurd h (by omega), fun h => by simp at h⟩
  | cons m rest ih =>
    intro acc
    by_cases hover : acc + tokOf m > rem
    · refine ⟨0, by omega, ?_, fun h => absurd h (by omega), ?_⟩
      · simp [fillRecall, hover]
      · intro _
        rw [List.take_succ_cons, tokSum_cons]
        simp only [List.take_zero, tokSum]
        simp only [List.map_nil, List.sum_nil]
        omega
    · obtain ⟨k, hk, heq, hle, hgt⟩ := ih (acc + tokOf m)
      refine ⟨k + 1, by simp only [List.length_cons]; omega, ?_, ?_, ?_⟩
      · simp [fillRecall, hover, heq, List.take_succ_cons]
      · intro _
        rw [List.take_succ_cons, tokSum_cons]
        by_cases hk0 : 0 < k
        · have := hle hk0
          omega
        · have hk0' : k = 0 := by omega
          subst hk0'
          simp only [List.take_zero, tokSum, List.map_nil, List.sum_nil]
          omega
      · intro hlt
        have hklt : k < rest.length := by
          simp only [List.length_cons] at hlt
          omega
        have := hgt hklt
        rw [List.take_succ_cons, tokSum_cons]
        omega

/-- **C3 (amended)**: with a (truthy) focus query, `build_context` emits as
head the system message determined by `sysMessageOf` — the archival excerpt is
appended in full exactly when the search matched and the excerpt's estimated
cost is strictly below `remaining // 3` where `remaining` deducts the system
prompt, core memory and a fixed 500-token margin — and the remaining messages
are precisely a greedy newest-first suffix of the recall buffer in
chronological order: they fit the post-archival budget, and the next-older
entry (when one exists) would overflow it. -/
theorem buildContext_budget (st : MemState) (max_tokens : Nat) (sp q : String)
    (hq : q ≠ "") :
    (build_context st max_tokens sp (some q)).1.head? =
      some (Msg.mk "system" (some (sysMessageOf st max_tokens sp q))) ∧
    ∃ j, j ≤ st.recallBuf.length ∧
      (build_context st max_tokens sp (some q)).1.tail = st.recallBuf.drop j ∧
      (j < st.recallBuf.length →
        tokSum (st.recallBuf.drop j) ≤ remainingAfterArch st max_tokens sp q) ∧
      (0 < j →
        tokSum (st.recallBuf.drop (j - 1)) > remainingAfterArch st max_tokens sp q) := by
  constructor
  · rw [build_context_focus_msgs st max_tokens sp q hq]
    rfl
  · rw [build_context_focus_msgs st max_tokens sp q hq]
    obtain ⟨k, hk, heq, hle, hgt⟩ :=
      fillRecall_spec st.recallBuf.reverse (remainingAfterArch st max_tokens sp q) 0
    have hk' : k ≤ st.recallBuf.length := by
      simpa using hk
    refine ⟨st.recallBuf.length - k, by omega, ?_, ?_, ?_⟩
    · show (fillRecall st.recallBuf.reverse (remainingAfterArch st max_tokens sp q) 0).1 = _
      rw [heq, reverse_take_rev]
    · intro hj
      have h0 : 0 < k := by omega
      have hfit := hle h0
      rw [← reverse_take_rev st.recallBuf k, tokSum_reverse]
      omega
    · intro hj
      have hklt : k < st.recallBuf.reverse.length := by
        simp only [List.length_reverse]
        omega
      have hover := hgt hklt
      have harr : st.recallBuf.length - k - 1 = st.recallBuf.length - (k + 1) := by omega
      rw [harr, ← reverse_take_rev st.recallBuf (k + 1), tokSum_reverse]
      omega

/-- Witness for C3 (amended), at a concrete store with one archival block. -/
theorem buildContext_budget_witness :
    (build_context ⟨[], [], [⟨"alpha", 1, 0, []⟩]⟩ 525 "" (some "alpha")).1.head? =
      some (Msg.mk "system"
        (some (sysMessageOf ⟨[], [], [⟨"alpha", 1, 0, []⟩]⟩ 525 "" "alpha"))) :=
  (buildContext_budget ⟨[], [], [⟨"alpha", 1, 0, []⟩]⟩ 525 "" "alpha" (by decide)).1

/-- Counterexample to C3 as stated: at this store the excerpt costs 8 tokens
and the remaining budget is 25, so the cost is strictly less than one-third of
the remaining budget (3·8 = 24 < 25), yet the code compares against
`remaining // 3 = 8` and omits the excerpt: the emitted system message is the
bare one, which differs from the message with the excerpt appended. -/
theorem buildContext_exact_third_cex :
    3 * (estimate_tokens (archivalExcerpt
          (search_archival [⟨"alpha", 1, 0, []⟩] "alpha" 5 []).1) : Int) <
        baseRemaining ⟨[], [], [⟨"alpha", 1, 0, []⟩]⟩ 525 "" ∧
    (build_context ⟨[], [], [⟨"alpha", 1, 0, []⟩]⟩ 525 "" (some "alpha")).1.head? =
      some (Msg.mk "system"
        (some (fullSystem (get_core_memory ([] : List (String × MemoryBlock))).1 ""))) ∧
    fullSystem (get_core_memory ([] : List (String × MemoryBlock))).1 "" ≠
      fullSystem (get_core_memory ([] : List (String × MemoryBlock))).1 "" ++ "\n" ++
        archivalExcerpt (search_archival [⟨"alpha", 1, 0, []⟩] "alpha" 5 []).1 := by
  refine ⟨by decide, by decide, by decide⟩

-- ══════════════════════ theorems: C7 (frame effect) ══════════════════════

/-- Forget the access counter (the one field `build_context` mutates). -/
def clearAccess (b : MemoryBlock) : MemoryBlock := { b with accessCount := 0 }

theorem map_clear_bump_pairs (l : List (String × MemoryBlock)) :
    ((l.map fun kb => (kb.1, bumpBlock kb.2)).map fun kb => (kb.1, clearAccess kb.2)) =
      l.map fun kb => (kb.1, clearAccess kb.2) := by
  induction l with
  | nil => rfl
  | cons hd tl ih =>
    simp only [List.map_cons, ih]
    rfl

theorem map_clear_cond_bump (l : List MemoryBlock) (p : MemoryBlock → Bool) :
    ((l.map fun b => if p b then bumpBlock b else b).map clearAccess) =
      l.map clearAccess := by
  induction l with
  | nil => rfl
  | cons hd tl ih =>
    simp only [List.map_cons, ih]
    by_cases hp : p hd = true
    · rw [if_pos hp]
      rfl
    · rw [if_neg hp]

/-- **C7 (amended)**: `build_context` leaves the recall buffer untouched and
changes no core or archival block except through the `access_count` field
(core counters are bumped by `get_core_memory`, matched archival counters by
`search_archival`): erasing access counters, the store is unchanged. -/
theorem buildContext_frame_modulo_access (st : MemState) (max_tokens : Nat)
    (sp : String) (fq : Option String) :
    ((build_context st max_tokens sp fq).2.2).recallBuf = st.recallBuf ∧
    (((build_context st max_tokens sp fq).2.2).core.map fun kb => (kb.1, clearAccess kb.2)) =
      (st.core.map fun kb => (kb.1, clearAccess kb.2)) ∧
    (((build_context st max_tokens sp fq).2.2).archival.map clearAccess) =
      st.archival.map clearAccess := by
  refine ⟨rfl, map_clear_bump_pairs st.core, ?_⟩
  rcases fq with _ | q
  · rfl
  · by_cases hq0 : q = ""
    · simp only [build_context, Option.getD_some, if_pos hq0]
    · simp only [build_context, Option.getD_some]
      rw [if_neg hq0]
      by_cases hres : (search_archival st.archival q 5 []).1 = []
      · rw [if_pos (by rw [hres]; rfl)]
        exact map_clear_cond_bump st.archival _
      · rw [if_neg (by simpa using hres)]
        by_cases hlt : (estimate_tokens (archivalExcerpt
              (search_archival st.archival q 5 []).1) : Int) <
            Int.ediv (baseRemaining st max_tokens sp) 3
        · rw [if_pos hlt]
          exact map_clear_cond_bump st.archival _
        · rw [if_neg hlt]
          exact map_clear_cond_bump st.archival _

/-- Counterexample to C7 as stated: `build_context` does change the store — a
single `readCore` pass bumps the core block's `access_count` from 0 to 1. -/
theorem buildContext_mutates_access_cex :
    (build_context ⟨[("persona", ⟨"I am Nexuss", 1, 0, []⟩)], [], []⟩ 4096 "p" none).2.2 ≠
      ⟨[("persona", ⟨"I am Nexuss", 1, 0, []⟩)], [], []⟩ := by
  decide

-- ═══════════════════════════ skill_registry.py ═══════════════════════════

/-- Keyword arguments of a tool call (`**kwargs`). -/
abbrev Args := List (String × String)

/-- A `SkillResult`; `execution_time` is wall-clock and omitted. -/
structure SkillResult where
  success : Bool
  output : Option String
  error : Option String
deriving DecidableEq, Repr

/-- A registered skill handler; raising an exception is `Except.error msg`. -/
abbrev SkillHandler := Args → Except String SkillResult

/-- The name-keyed handler table of `SkillRegistry`. -/
abbrev Registry := List (String × SkillHandler)

/-- `SkillRegistry.get(name)`. -/
def getSkill (reg : Registry) (name : String) : Option SkillHandler :=
  (reg.find? fun p => p.1 = name).map fun p => p.2

/-- `SkillRegistry.execute(name, **kwargs)`: a missing skill and a raising
handler both yield a failing `SkillResult` instead of an exception. -/
def executeSkill (reg : Registry) (name : String) (args : Args) : SkillResult :=
  match getSkill reg name with
  | none => ⟨false, none, some ("Skill \x27" ++ name ++ "\x27 not found")⟩
  | some h =>
    match h args with
    | Except.ok r => r
    | Except.error e => ⟨false, none, some e⟩

-- ══════════════════════ theorem: C5 (skill dispatch) ═════════════════════

theorem executeSkill_eq_none (reg : Registry) (name : String) (args : Args)
    (hg : getSkill reg name = none) :
    executeSkill reg name args =
      ⟨false, none, some ("Skill \x27" ++ name ++ "\x27 not found")⟩ := by
  unfold executeSkill
  rw [hg]

theorem executeSkill_eq_ok (reg : Registry) (name : String) (args : Args)
    (h : SkillHandler) (r : SkillResult) (hg : getSkill reg name = some h)
    (hr : h args = Except.ok r) : executeSkill reg name args = r := by
  unfold executeSkill
  rw [hg]
  show (match h args with
    | Except.ok r => r
    | Except.error e => ⟨false, none, some e⟩) = r
  rw [hr]

theorem executeSkill_eq_error (reg : Registry) (name : String) (args : Args)
    (h : SkillHandler) (e : String) (hg : getSkill reg name = some h)
    (he : h args = Except.error e) :
    executeSkill reg name args = ⟨false, none, some e⟩ := by
  unfold executeSkill
  rw [hg]
  show (match h args with
    | Except.ok r => r
    | Except.error e2 => ⟨false, none, some e2⟩) = _
  rw [he]

/-- **C5**: `SkillRegistry.execute` never propagates a handler exception: an
unregistered name yields a failing `SkillResult` naming the skill, a raising
handler is observed only as `success = false` with the exception message in
`error`, and a successful result can only come from a registered handler
returning normally. -/
theorem skillExecute_contained (reg : Registry) (name : String) (args : Args) :
    (getSkill reg name = none →
      executeSkill reg name args =
        ⟨false, none, some ("Skill \x27" ++ name ++ "\x27 not found")⟩) ∧
    (∀ (h : SkillHandler) (e : String),
      getSkill reg name = some h → h args = Except.error e →
      executeSkill reg name args = ⟨false, none, some e⟩) ∧
    ((executeSkill reg name args).success = true →
      ∃ (h : SkillHandler) (r : SkillResult), getSkill reg name = some h ∧
        h args = Except.ok r ∧ r.success = true) := by
  refine ⟨executeSkill_eq_none reg name args, executeSkill_eq_error reg name args, ?_⟩
  intro hs
  cases hg : getSkill reg name with
  | none =>
    rw [executeSkill_eq_none reg name args hg] at hs
    simp at hs
  | some h =>
    cases hr : h args with
    | ok r =>
      rw [executeSkill_eq_ok reg name args h r hg hr] at hs
      exact ⟨h, r, rfl, hr, hs⟩
    | error e =>
      rw [executeSkill_eq_error reg name args h e hg hr] at hs
      simp at hs

/-- Witness for C5: a raising handler is contained; a missing name fails. -/
theorem skillExecute_contained_witness :
    executeSkill [("boom", fun _ => Except.error "kaboom")] "boom" [] =
      ⟨false, none, some "kaboom"⟩ ∧
    executeSkill [] "missing" [] =
      ⟨false, none, some ("Skill \x27missing\x27 not found")⟩ :=
  ⟨(skillExecute_contained [("boom", fun _ => Except.error "kaboom")] "boom" []).2.1
      (fun _ => Except.error "kaboom") "kaboom" rfl rfl,
    (skillExecute_contained [] "missing" []).1 rfl⟩

-- ═══════════════════════ heartbeat_protocol.py ═══════════════════════════

/-- `AgentState`. -/
inductive AgentState where
  | INITIALIZING
  | WAITING_INPUT
  | HEARTBEAT
  | ERROR
  | SHUTDOWN
  | IDLE
  | THINKING
  | EXECUTING
deriving DecidableEq, Repr

/-- `MemoryManager.get_memory_stats()`. -/
structure MemStats where
  core_characters : Nat
  core_limit : Nat
  recall_messages : Nat
  recall_limit : Nat
  archival_blocks : Nat
deriving DecidableEq, Repr

def get_memory_stats (st : MemState) : MemStats :=
  ⟨coreTotal st.core, CORE_MEMORY_LIMIT, st.recallBuf.length, RECALL_MEMORY_LIMIT,
    st.archival.length⟩

/-- A `HeartbeatEvent` (its `timestamp` string is wall-clock and omitted). -/
structure HeartbeatEvent where
  beat_id : Nat
  state : AgentState
  memory_usage : MemStats
  pending_tasks : Nat
  notes : String
deriving DecidableEq, Repr

/-- A backend reply: `ChatResponse.message` may be absent; a message carries
optional text content and tool calls. -/
structure RespMsg where
  content : Option String
  toolCalls : List (String × Args)

structure ChatResp where
  message : Option RespMsg

/-- The mutable fields of `HeartbeatProtocol` one cycle touches, plus the
stop/wake events and the thread-safe queues (modelled as lists). -/
structure HBState where
  beat_count : Nat
  missed_beats : Nat
  state : AgentState
  inputQueue : List String
  outputQueue : List (String × String)
  history : List HeartbeatEvent
  mem : MemState
  heartbeatRequested : Bool
  stopFlag : Bool
deriving DecidableEq, Repr

/-- `_process_response(response, messages)`: record the assistant text in
recall; on tool calls enter `EXECUTING` and run each through the dispatcher
(tool results are appended to the local `messages` list, which the source
never reads again, and the modelled handlers are pure, so the executions
leave no further observable trace here); a plain text reply with no tool
calls is published as a `("message", text)` entry. -/
def process_response (reg : Registry) (resp : ChatResp) (s : HBState) : HBState :=
  match resp.message with
  | none => s
  | some m =>
    let s1 := { s with mem := { s.mem with
      recallBuf := add_to_recall s.mem.recallBuf ⟨"assistant", some (m.content.getD "")⟩ } }
    let s2 := if m.toolCalls.isEmpty then s1 else { s1 with state := AgentState.EXECUTING }
    match m.content with
    | some c =>
      if c ≠ "" ∧ m.toolCalls.isEmpty then
        { s2 with outputQueue := s2.outputQueue ++ [("message", c)] }
      else s2
    | none => s2

/-- The augmented user message for local backends. -/
def localAugmented (statusBlock userMsg : String) : String :=
  "[Your internal status for reference]\n" ++ statusBlock ++
    "\n\nUser message: " ++ userMsg

/-- The pending-input hint for remote backends. -/
def remoteHint (ms : List String) : String :=
  "Process these messages and respond.\n\n[PENDING USER INPUT]\n" ++
    strJoin "\n" (ms.map fun m => "User: " ++ m)

/-- `HeartbeatProtocol._execute_heartbeat(triggered_by_event)`: bump the beat
counter, drain queued input into recall, build context (focused on the last
input), skip the model call for an idle local cycle (early return), otherwise
call the backend — catching any raised error as an `("error", msg)` output
entry — then record a `HeartbeatEvent`, reset `missed_beats` and return to
`IDLE`. The system prompt and status block embed wall-clock text and are
inputs here; the backend is the function `llm` (raising = `Except.error`). -/
def execute_heartbeat (isLocal : Bool) (reg : Registry)
    (llm : List Msg → Except String ChatResp) (max_tokens : Nat)
    (sysPrompt statusBlock : String) (s : HBState) (triggered : Bool) : HBState :=
  let s1 : HBState := { s with beat_count := s.beat_count + 1, state := AgentState.HEARTBEAT }
  let user_messages := s1.inputQueue
  let s2 : HBState := { s1 with inputQueue := [] }
  let s3 : HBState := { s2 with mem := { s2.mem with
    recallBuf := user_messages.foldl (fun r m => add_to_recall r ⟨"user", some m⟩)
      s2.mem.recallBuf } }
  let focus := user_messages.getLast?
  let bc := build_context s3.mem max_tokens sysPrompt focus
  let s4 : HBState := { s3 with mem := bc.2.2 }
  if user_messages.isEmpty && isLocal then s4
  else
    let messages :=
      if user_messages.isEmpty then
        bc.1 ++ [⟨"user", some "Heartbeat tick. Reflect and act if needed."⟩]
      else if isLocal then
        bc.1 ++ [⟨"user", some (localAugmented statusBlock (user_messages.getLast?.getD ""))⟩]
      else
        bc.1 ++ [⟨"user", some (remoteHint user_messages)⟩]
    let s5 : HBState := { s4 with state := AgentState.THINKING }
    let s6 : HBState :=
      match llm messages with
      | Except.ok resp => process_response reg resp s5
      | Except.error e => { s5 with outputQueue := s5.outputQueue ++ [("error", e)] }
    let ev : HeartbeatEvent :=
      ⟨s6.beat_count, s6.state, get_memory_stats s6.mem, user_messages.length,
        if triggered then "triggered=True" else "triggered=False"⟩
    { s6 with
      history := dequeAppend HEARTBEAT_HISTORY_LIMIT s6.history ev,
      state := AgentState.IDLE,
      missed_beats := 0 }

/-- The iteration of `_heartbeat_loop`: one wait / clear / `_execute_heartbeat`
round per element of `cycles`, each cycle with its own backend behaviour (the
timed wait itself is wall-clock and not modelled beyond sequencing). -/
def run_cycles (isLocal : Bool) (reg : Registry) (max_tokens : Nat)
    (sysPrompt statusBlock : String) :
    List (List Msg → Except String ChatResp) → HBState → HBState
  | [], s => s
  | f :: fs, s =>
    run_cycles isLocal reg max_tokens sysPrompt statusBlock fs
      (execute_heartbeat isLocal reg f max_tokens sysPrompt statusBlock s true)

/-- `HeartbeatProtocol.stop()`: sets the stop event, joins the worker thread
with a bounded 5-second timeout (wall-clock, not modelled further) and marks
`SHUTDOWN`. It does not set `_heartbeat_requested`. -/
def stopProtocol (s : HBState) : HBState :=
  { s with stopFlag := true, state := AgentState.SHUTDOWN }

-- ═════════════ theorems: C6, C8 (cycle bookkeeping), C9 (stop) ═══════════

theorem process_response_preserves (reg : Registry) (resp : ChatResp) (s : HBState) :
    (process_response reg resp s).beat_count = s.beat_count ∧
    (process_response reg resp s).history = s.history ∧
    (process_response reg resp s).missed_beats = s.missed_beats := by
  rcases resp with ⟨msg⟩
  rcases msg with _ | ⟨c, tc⟩
  · exact ⟨rfl, rfl, rfl⟩
  · rcases c with _ | c
    · by_cases ht : (tc : List (String × Args)).isEmpty = true <;>
        simp [process_response, ht]
    · by_cases ht : (tc : List (String × Args)).isEmpty = true <;>
        by_cases hc : c = "" <;> simp [process_response, ht, hc]

theorem process_response_beat (reg : Registry) (resp : ChatResp) (s : HBState) :
    (process_response reg resp s).beat_count = s.beat_count :=
  (process_response_preserves reg resp s).1

theorem execute_heartbeat_beat_count (isLocal : Bool) (reg : Registry)
    (llm : List Msg → Except String ChatResp) (max_tokens : Nat)
    (sysPrompt statusBlock : String) (s : HBState) (t : Bool) :
    (execute_heartbeat isLocal reg llm max_tokens sysPrompt statusBlock s t).beat_count =
      s.beat_count + 1 := by
  simp only [execute_heartbeat]
  split
  · rfl
  · split
    · simp [process_response_beat]
    · rfl

theorem dequeAppend_getLast? (cap : Nat) (l : List α) (a : α) :
    (dequeAppend cap l a).getLast? = some a := by
  unfold dequeAppend
  split <;> simp [List.getLast?_concat]

theorem run_cycles_beat_count (isLocal : Bool) (reg : Registry) (max_tokens : Nat)
    (sysPrompt statusBlock : String) (fs : List (List Msg → Except String ChatResp))
    (s : HBState) :
    (run_cycles isLocal reg max_tokens sysPrompt statusBlock fs s).beat_count =
      s.beat_count + fs.length := by
  induction fs generalizing s with
  | nil => rfl
  | cons f rest ih =>
    show (run_cycles isLocal reg max_tokens sysPrompt statusBlock rest _).beat_count = _
    rw [ih, execute_heartbeat_beat_count]
    simp only [List.length_cons]
    omega

/-- **C6**: when the backend invocation raises, the cycle catches the
exception, appends exactly one `("error", message)` entry to the output
queue — whose tag differs from the `"message"` tag of ordinary entries — and
the loop keeps executing every following cycle (the beat counter still
advances by one per cycle). -/
theorem heartbeat_error_reported (isLocal : Bool) (reg : Registry) (e : String)
    (max_tokens : Nat) (sysPrompt statusBlock : String) (s : HBState) (t : Bool)
    (hmain : ¬(s.inputQueue = [] ∧ isLocal = true)) :
    (execute_heartbeat isLocal reg (fun _ => Except.error e) max_tokens sysPrompt
        statusBlock s t).outputQueue = s.outputQueue ++ [("error", e)] ∧
    (("error", e) : String × String).1 ≠ "message" ∧
    ∀ fs : List (List Msg → Except String ChatResp),
      (run_cycles isLocal reg max_tokens sysPrompt statusBlock fs
          (execute_heartbeat isLocal reg (fun _ => Except.error e) max_tokens sysPrompt
            statusBlock s t)).beat_count =
        (execute_heartbeat isLocal reg (fun _ => Except.error e) max_tokens sysPrompt
          statusBlock s t).beat_count + fs.length := by
  refine ⟨?_, by simp, fun fs => run_cycles_beat_count _ _ _ _ _ fs _⟩
  have hcond : ¬((s.inputQueue.isEmpty && isLocal) = true) := by
    simpa using hmain
  simp only [execute_heartbeat]
  rw [if_neg hcond]

/-- Witness for C6 at a concrete state with one queued input. -/
theorem heartbeat_error_reported_witness :
    (execute_heartbeat false [] (fun _ => Except.error "boom") 600 "" ""
        ⟨0, 0, AgentState.IDLE, ["hello"], [], [], ⟨[], [], []⟩, false, false⟩
        true).outputQueue =
      ([] : List (String × String)) ++ [("error", "boom")] :=
  (heartbeat_error_reported false [] "boom" 600 "" ""
    ⟨0, 0, AgentState.IDLE, ["hello"], [], [], ⟨[], [], []⟩, false, false⟩ true
    (by simp)).1

/-- **C8 (amended)**: every executed heartbeat cycle that reaches the model
call ends by recording a `HeartbeatEvent` (the history's last entry carries
the new beat number), resetting the missed-beat counter to zero and returning
the state to `IDLE`; but the local-backend no-op cycle (no queued input)
returns early, leaving the history, the missed-beat counter and the output
queue unchanged and the state at `HEARTBEAT`, not `IDLE`. -/
theorem heartbeat_cycle_end (isLocal : Bool) (reg : Registry)
    (llm : List Msg → Except String ChatResp) (max_tokens : Nat)
    (sysPrompt statusBlock : String) (s : HBState) (t : Bool) :
    (¬(s.inputQueue = [] ∧ isLocal = true) →
      (execute_heartbeat isLocal reg llm max_tokens sysPrompt statusBlock s t).state =
          AgentState.IDLE ∧
        (execute_heartbeat isLocal reg llm max_tokens sysPrompt statusBlock s
            t).missed_beats = 0 ∧
        ((execute_heartbeat isLocal reg llm max_tokens sysPrompt statusBlock s
            t).history.getLast?.map fun ev => ev.beat_id) = some (s.beat_count + 1)) ∧
    (s.inputQueue = [] → isLocal = true →
      (execute_heartbeat isLocal reg llm max_tokens sysPrompt statusBlock s t).state =
          AgentState.HEARTBEAT ∧
        (execute_heartbeat isLocal reg llm max_tokens sysPrompt statusBlock s
            t).missed_beats = s.missed_beats ∧
        (execute_heartbeat isLocal reg llm max_tokens sysPrompt statusBlock s
            t).history = s.history ∧
        (execute_heartbeat isLocal reg llm max_tokens sysPrompt statusBlock s
            t).outputQueue = s.outputQueue) := by
  constructor
  · intro hmain
    have hcond : ¬((s.inputQueue.isEmpty && isLocal) = true) := by
      simpa using hmain
    simp only [execute_heartbeat]
    rw [if_neg hcond]
    split
    · refine ⟨rfl, rfl, ?_⟩
      simp [dequeAppend_getLast?, process_response_beat]
    · refine ⟨rfl, rfl, ?_⟩
      simp [dequeAppend_getLast?]
  · intro hq hl
    simp only [execute_heartbeat]
    rw [if_pos (by simp [hq, hl])]
    exact ⟨rfl, rfl, rfl, rfl⟩

/-- Witness for C8 (amended): a remote-backend cycle with queued input ends
at `IDLE` with the event recorded, and a local no-op cycle stays at
`HEARTBEAT` with untouched history. -/
theorem heartbeat_cycle_end_witness :
    ((execute_heartbeat false [] (fun _ => Except.error "x") 600 "" ""
        ⟨0, 3, AgentState.IDLE, ["hi"], [], [], ⟨[], [], []⟩, false, false⟩ true).state =
          AgentState.IDLE ∧
      (execute_heartbeat false [] (fun _ => Except.error "x") 600 "" ""
          ⟨0, 3, AgentState.IDLE, ["hi"], [], [], ⟨[], [], []⟩, false, false⟩
          true).missed_beats = 0 ∧
      ((execute_heartbeat false [] (fun _ => Except.error "x") 600 "" ""
          ⟨0, 3, AgentState.IDLE, ["hi"], [], [], ⟨[], [], []⟩, false, false⟩
          true).history.getLast?.map fun ev => ev.beat_id) = some (0 + 1)) ∧
    ((execute_heartbeat true [] (fun _ => Except.error "x") 600 "" ""
        ⟨0, 3, AgentState.IDLE, [], [], [], ⟨[], [], []⟩, false, false⟩ true).state =
          AgentState.HEARTBEAT ∧
      (execute_heartbeat true [] (fun _ => Except.error "x") 600 "" ""
          ⟨0, 3, AgentState.IDLE, [], [], [], ⟨[], [], []⟩, false, false⟩
          true).missed_beats = 3 ∧
      (execute_heartbeat true [] (fun _ => Except.error "x") 600 "" ""
          ⟨0, 3, AgentState.IDLE, [], [], [], ⟨[], [], []⟩, false, false⟩
          true).history = [] ∧
      (execute_heartbeat true [] (fun _ => Except.error "x") 600 "" ""
          ⟨0, 3, AgentState.IDLE, [], [], [], ⟨[], [], []⟩, false, false⟩
          true).outputQueue = []) :=
  ⟨(heartbeat_cycle_end false [] (fun _ => Except.error "x") 600 "" ""
      ⟨0, 3, AgentState.IDLE, ["hi"], [], [], ⟨[], [], []⟩, false, false⟩ true).1
      (by simp),
    (heartbeat_cycle_end true [] (fun _ => Except.error "x") 600 "" ""
      ⟨0, 3, AgentState.IDLE, [], [], [], ⟨[], [], []⟩, false, false⟩ true).2 rfl rfl⟩

/-- Counterexample to C8 as stated: a tool-incapable local backend with no
queued input takes the no-op early return, so the cycle records no event,
keeps the missed-beat counter at 1 and leaves the state at `HEARTBEAT`
instead of `IDLE`. -/
theorem heartbeat_noop_cex :
    (execute_heartbeat true [] (fun _ => Except.error "never") 4096 "" ""
        ⟨0, 1, AgentState.IDLE, [], [], [], ⟨[], [], []⟩, false, false⟩ true).state =
      AgentState.HEARTBEAT ∧
    (execute_heartbeat true [] (fun _ => Except.error "never") 4096 "" ""
        ⟨0, 1, AgentState.IDLE, [], [], [], ⟨[], [], []⟩, false, false⟩
        true).missed_beats = 1 ∧
    (execute_heartbeat true [] (fun _ => Except.error "never") 4096 "" ""
        ⟨0, 1, AgentState.IDLE, [], [], [], ⟨[], [], []⟩, false, false⟩
        true).history = [] := by
  refine ⟨by decide, by decide, by decide⟩

/-- **C9 (amended)**: `stop()` sets the stop flag and marks `SHUTDOWN` (the
worker join is bounded by a 5-second timeout in the source), but it does not
signal the wake condition `_heartbeat_requested`: the wake flag is exactly
what it was before the call. -/
theorem stop_sets_flag_not_wake (s : HBState) :
    (stopProtocol s).stopFlag = true ∧
    (stopProtocol s).state = AgentState.SHUTDOWN ∧
    (stopProtocol s).heartbeatRequested = s.heartbeatRequested :=
  ⟨rfl, rfl, rfl⟩

/-- Counterexample to C9 as stated: with the wake condition unset, stopping
leaves it unset — `stop()` does not signal the wake condition, so a worker
sleeping in its timed wait is not woken early. -/
theorem stop_no_wake_cex :
    (stopProtocol
        ⟨0, 0, AgentState.IDLE, [], [], [], ⟨[], [], []⟩, false, false⟩).heartbeatRequested =
      false := rfl
